import Mathlib

/-!
Verification of the reverse chunked line reader of the repository
(class txt_lines, method reverse_lines_chunked, in core_logic_classes.py).

Files are modelled as lists of natural numbers standing for bytes. Decoded
Python strings are represented by their UTF-8 byte sequences: UTF-8 encoding
is injective, and the bytes 0x0A (LF) and 0x0D (CR) always stand alone
inside valid UTF-8 (continuation bytes are at least 0x80), so stripping
trailing CR characters of a string and appending an LF agree with the same
operations on the encoding.

The two Python while loops are embedded as fuel-indexed structural
recursions. The fuel passed at each call site (the buffer length for the
inner loop, the starting cursor for the outer loop) is proven sufficient
below, so the embedded functions compute exactly the values of the
unbounded loops whenever those terminate.
-/

namespace BWRev

abbrev Byte := Nat

/-- One step of the UTF-8 acceptance automaton of bytes.decode in Python.
The state is none once some byte has been rejected, otherwise the list of
admissible ranges for the continuation bytes still expected. The ranges
written here are exactly the ones of RFC 3629 (no overlong forms, no
surrogates, nothing above U+10FFFF), which is what the Python decoder
accepts. -/
def utf8Step (s : Option (List (Nat × Nat))) (b : Byte) : Option (List (Nat × Nat)) :=
  match s with
  | none => none
  | some ((lo, hi) :: rest) => if lo ≤ b ∧ b ≤ hi then some rest else none
  | some [] =>
    if b ≤ 0x7F then some []
    else if b < 0xC2 then none
    else if b ≤ 0xDF then some [(0x80, 0xBF)]
    else if b = 0xE0 then some [(0xA0, 0xBF), (0x80, 0xBF)]
    else if b = 0xED then some [(0x80, 0x9F), (0x80, 0xBF)]
    else if b ≤ 0xEF then some [(0x80, 0xBF), (0x80, 0xBF)]
    else if b = 0xF0 then some [(0x90, 0xBF), (0x80, 0xBF), (0x80, 0xBF)]
    else if b = 0xF4 then some [(0x80, 0x8F), (0x80, 0xBF), (0x80, 0xBF)]
    else if b ≤ 0xF4 then some [(0x80, 0xBF), (0x80, 0xBF), (0x80, 0xBF)]
    else none

/-- Whether line_bytes.decode of Python succeeds on this byte sequence. -/
def utf8Valid (l : List Byte) : Bool :=
  match l.foldl utf8Step (some []) with
  | some [] => true
  | _ => false

/-- Index of the last 0x0A byte, as buffer.rfind of Python (none for -1). -/
def rfindNl : List Byte → Option Nat
  | [] => none
  | b :: bs =>
    match rfindNl bs with
    | some i => some (i + 1)
    | none => if b = 10 then some 0 else none

/-- The Python expression line.rstrip with a CR argument: remove every
trailing 0x0D byte. -/
def rstripCR (l : List Byte) : List Byte :=
  (l.reverse.dropWhile (fun b => b == 13)).reverse

/-- Normalization applied to every accepted line by the source: strip the
trailing CR bytes, then append exactly one LF byte. -/
def normLine (l : List Byte) : List Byte := rstripCR l ++ [10]

/-- Split a byte list at every 0x0A byte, keeping empty pieces, as
str.split in Python: the result has one piece more than the number of LF
bytes, and no piece contains an LF. -/
def pySplitNl : List Byte → List (List Byte)
  | [] => [[]]
  | b :: bs =>
    if b = 10 then [] :: pySplitNl bs
    else
      match pySplitNl bs with
      | s :: ss => (b :: s) :: ss
      | [] => [[b]]

/-- Reference description of the complete output of the scan: the pieces of
the file between LF bytes, in reverse file order, empty pieces omitted,
each remaining piece normalized. The central lemma below proves that the
chunked scan returns exactly this list, for every chunk size, on every
file that decodes as UTF-8. -/
def procLines (l : List Byte) : List (List Byte) :=
  ((pySplitNl l).reverse.filter (fun s => !s.isEmpty)).map normLine

/-- Bytes of the file from offset a (inclusive) to offset b (exclusive), as
a Python slice of the file. -/
def bufSlice (f : List Byte) (a b : Nat) : List Byte := (f.drop a).take (b - a)

/-- Length of the longest LF-free contiguous piece of the file. -/
def longestRun (l : List Byte) : Nat := ((pySplitNl l).map List.length).foldr max 0

/-- Inner while loop of reverse_lines_chunked: repeatedly find the last LF
of the buffer, split off the candidate bytes after it, decode them, append
the normalized line when it is nonempty, and trim the buffer; on a decode
failure put the candidate back in front of the buffer and stop. The length
check on the candidate bytes is equivalent to the length check the source
performs on the decoded string, because a nonempty byte sequence decodes to
a nonempty string. Fuel equal to the buffer length is sufficient, since
every round removes at least the LF byte from the buffer. -/
def drainF : Nat → List Byte → List (List Byte) → List Byte × List (List Byte)
  | 0, buffer, lines => (buffer, lines)
  | fuel + 1, buffer, lines =>
    match rfindNl buffer with
    | none => (buffer, lines)
    | some nl_index =>
      let line_bytes := buffer.drop (nl_index + 1)
      let buffer1 := buffer.take (nl_index + 1)
      if utf8Valid line_bytes then
        drainF fuel (buffer1.take nl_index)
          (if 0 < line_bytes.length then lines ++ [normLine line_bytes] else lines)
      else
        (line_bytes ++ buffer1, lines)

/-- Outer while loop of reverse_lines_chunked: while the cursor is
positive, read min (chunk size) (cursor) bytes ending at the cursor, move
the cursor down by that amount, prepend the chunk to the buffer and drain
the buffer. The last component is a ghost accumulator recording the
largest buffer length ever reached (the buffer is largest right after a
prepend, since draining never lengthens it); it does not influence the
computed buffer and lines. Fuel equal to the cursor is sufficient when the
chunk size is at least one. -/
def scanLoopF (file : List Byte) (c : Nat) : Nat → Nat → List Byte → List (List Byte) → Nat → List Byte × List (List Byte) × Nat
  | 0, _, buffer, lines, peak => (buffer, lines, peak)
  | fuel + 1, p, buffer, lines, peak =>
    if p = 0 then (buffer, lines, peak)
    else
      let r := min c p
      let p2 := p - r
      let chunk := bufSlice file p2 p
      let buf2 := chunk ++ buffer
      let d := drainF buf2.length buf2 lines
      scanLoopF file c fuel p2 d.1 d.2 (max peak buf2.length)

/-- The method txt_lines.reverse_lines_chunked of core_logic_classes.py on
a file that opens and reads without error: scan backwards from the end of
the file, then flush the remaining buffer, appending its normalized decode
when it is nonempty and decodable and dropping it with a printed warning
otherwise. Lines are represented by their UTF-8 bytes. -/
def reverse_lines_chunked (file : List Byte) (chunk_size : Nat) : List (List Byte) :=
  let res := scanLoopF file chunk_size file.length file.length [] [] 0
  if res.1.isEmpty then res.2.1
  else if utf8Valid res.1 then res.2.1 ++ [normLine res.1]
  else res.2.1

/-- A file device for the error model: the byte content plus a threshold
below which a backward read raises an OS error mid-scan. A threshold of
zero never fails. -/
structure Device where
  bytes : List Byte
  failBelow : Nat
deriving DecidableEq

/-- The diagnostics the method prints: the not-found message of the first
handler, the generic error message of the second handler, and the warning
about undecodable final bytes. -/
inductive Diag where
  | fileNotFound
  | ioError
  | trailingDecodeWarning
deriving DecidableEq

/-- Observable outcome of one call of the method: the returned list, the
final value of the lines attribute of the object, and the printed
diagnostics. -/
structure CallResult where
  ret : List (List Byte)
  self_lines : List (List Byte)
  diags : List Diag
deriving DecidableEq

/-- Outer loop in the error model: identical to scanLoopF, except that a
read starting below the failure threshold of the device raises, carrying
the lines gathered so far (the value of the lines attribute at the moment
the exception leaves the method). -/
def scanExF (dev : Device) (c : Nat) : Nat → Nat → List Byte → List (List Byte) → Except (List (List Byte)) (List Byte × List (List Byte))
  | 0, _, buffer, lines => .ok (buffer, lines)
  | fuel + 1, p, buffer, lines =>
    if p = 0 then .ok (buffer, lines)
    else
      let r := min c p
      let p2 := p - r
      if p2 < dev.failBelow then .error lines
      else
        let buf2 := bufSlice dev.bytes p2 p ++ buffer
        let d := drainF buf2.length buf2 lines
        scanExF dev c fuel p2 d.1 d.2

/-- One call of reverse_lines_chunked in the error model. A missing file
makes open raise FileNotFoundError: the first handler prints the not-found
message and returns the empty list, with the lines attribute still holding
the empty list assigned at the start of the method. A read failure
mid-scan reaches the generic handler, which also returns the empty list,
while the lines attribute keeps the lines gathered before the failure.
Otherwise the scan completes and the flush runs as in the pure model. -/
def runModel (d : Option Device) (c : Nat) : CallResult :=
  match d with
  | none => ⟨[], [], [Diag.fileNotFound]⟩
  | some dev =>
    match scanExF dev c dev.bytes.length dev.bytes.length [] [] with
    | .error lines => ⟨[], lines, [Diag.ioError]⟩
    | .ok (buffer, lines) =>
      if buffer.isEmpty then ⟨lines, lines, []⟩
      else if utf8Valid buffer then ⟨lines ++ [normLine buffer], lines ++ [normLine buffer], []⟩
      else ⟨lines, lines, [Diag.trailingDecodeWarning]⟩

/-- Remove one trailing CR byte if one is present (and only one). -/
def stripOneCR (s : List Byte) : List Byte :=
  if s.getLast? = some 13 then s.dropLast else s

/-- Modelled from the spec: the forward line sequence of a file with every
terminator normalized to a single LF. Each piece before an LF is a
terminated line whose terminator (LF, or CR LF, in which case the CR byte
belongs to the terminator and is removed) becomes a single LF; a nonempty
final piece is an unterminated line and also receives the canonical LF; an
empty final piece, produced by a terminator that ends the file, yields no
line. -/
def specForwardLines (f : List Byte) : List (List Byte) :=
  let ss := pySplitNl f
  (ss.dropLast.map (fun s => stripOneCR s ++ [10])) ++
    (match ss.getLast? with
     | some s => if s.isEmpty then [] else [s ++ [10]]
     | none => [])

/-- Loop invariant at the head of every outer iteration of the scan, for a
file that decodes as UTF-8: the buffer is exactly the slice of the file
from the cursor to the boundary, the buffer holds no LF, the boundary sits
on an LF byte of the file or at the end of the file, and the lines
gathered so far are exactly the reference lines of the file past the
boundary. -/
def Inv (f : List Byte) (p : Nat) (buffer : List Byte) (lines : List (List Byte)) : Prop :=
  buffer = bufSlice f p (p + buffer.length) ∧
  p + buffer.length ≤ f.length ∧
  10 ∉ buffer ∧
  (p + buffer.length = f.length ∨ (f.drop (p + buffer.length)).head? = some 10) ∧
  lines = procLines (f.drop (p + buffer.length))

instance (f : List Byte) (p : Nat) (buffer : List Byte) (lines : List (List Byte)) : Decidable (Inv f p buffer lines) := by
  unfold Inv
  infer_instance

/-! Basic facts about the UTF-8 acceptance automaton. -/

lemma foldl_utf8Step_none (l : List Byte) : l.foldl utf8Step none = none := by
  induction l with
  | nil => rfl
  | cons b bs ih => simpa [utf8Step] using ih

/-- Every range a reachable state can carry starts at 128 or above, so an
LF byte is only accepted from the initial state. -/
def goodState : Option (List (Nat × Nat)) → Bool
  | none => true
  | some rs => rs.all (fun r => 128 ≤ r.1)

lemma utf8Step_good {s : Option (List (Nat × Nat))} (b : Byte) (h : goodState s = true) :
    goodState (utf8Step s b) = true := by
  rcases s with _ | (_ | ⟨⟨lo, hi⟩, rest⟩)
  · rfl
  · simp only [utf8Step]
    repeat' split
    all_goals rfl
  · simp only [utf8Step]
    split
    · simp only [goodState, List.all_cons, Bool.and_eq_true] at h
      simpa [goodState] using h.2
    · rfl

lemma foldl_utf8Step_good {s : Option (List (Nat × Nat))} (l : List Byte)
    (h : goodState s = true) : goodState (l.foldl utf8Step s) = true := by
  induction l generalizing s with
  | nil => exact h
  | cons b bs ih => exact ih (utf8Step_good b h)

lemma utf8Valid_nil : utf8Valid [] = true := rfl

/-- Splitting a valid byte sequence at an LF byte leaves two valid parts:
an LF can never sit inside a multi-byte character. -/
lemma utf8_split_nl {u v : List Byte} (h : utf8Valid (u ++ 10 :: v) = true) :
    utf8Valid u = true ∧ utf8Valid v = true := by
  unfold utf8Valid at h
  rw [List.foldl_append, List.foldl_cons] at h
  have hg : goodState (u.foldl utf8Step (some [])) = true :=
    foldl_utf8Step_good u rfl
  rcases hσ : u.foldl utf8Step (some []) with _ | (_ | ⟨⟨lo, hi⟩, rest⟩)
  · rw [hσ] at h
    rw [show utf8Step none 10 = none from rfl, foldl_utf8Step_none] at h
    exact absurd h (by simp)
  · rw [hσ] at h
    rw [show utf8Step (some []) 10 = some [] from rfl] at h
    exact ⟨by simp [utf8Valid, hσ], by simp [utf8Valid, h]⟩
  · rw [hσ] at hg
    simp only [goodState, List.all_cons, Bool.and_eq_true, decide_eq_true_eq] at hg
    rw [hσ] at h
    have hstep : utf8Step (some ((lo, hi) :: rest)) 10 = none := by
      have hn : ¬(lo ≤ 10 ∧ 10 ≤ hi) := by
        rintro ⟨h1, -⟩
        omega
      simp only [utf8Step, if_neg hn]
    rw [hstep, foldl_utf8Step_none] at h
    exact absurd h (by simp)

/-- Joining two valid byte sequences with an LF byte in between keeps the
whole sequence valid. -/
lemma utf8_join_nl {u v : List Byte} (hu : utf8Valid u = true) (hv : utf8Valid v = true) :
    utf8Valid (u ++ 10 :: v) = true := by
  unfold utf8Valid at *
  rw [List.foldl_append, List.foldl_cons]
  rcases hσ : u.foldl utf8Step (some []) with _ | (_ | ⟨r, rest⟩)
  · rw [hσ] at hu
    simp at hu
  · rw [show utf8Step (some []) 10 = some [] from rfl]
    exact hv
  · rw [hσ] at hu
    simp at hu

/-! Facts about rfindNl, takeWhile and dropWhile on the LF byte. -/

/-- The predicate separating ordinary bytes from the LF terminator. -/
def ne10 (b : Byte) : Bool := !(b == 10)

lemma rfindNl_eq_none {l : List Byte} : rfindNl l = none ↔ 10 ∉ l := by
  induction l with
  | nil => simp [rfindNl]
  | cons b bs ih =>
    simp only [rfindNl]
    rcases h : rfindNl bs with _ | i
    · have h10 : 10 ∉ bs := ih.mp h
      by_cases hb : b = 10
      · subst hb
        simp [h]
      · have hb2 : ¬10 = b := fun he => hb he.symm
        simp [h, hb, hb2, h10]
    · have h10 : 10 ∈ bs := by
        by_contra hn
        rw [ih.mpr hn] at h
        cases h
      simp [h, h10]

lemma rfindNl_some_decomp {l : List Byte} {n : Nat} (h : rfindNl l = some n) :
    ∃ u w, l = u ++ 10 :: w ∧ u.length = n ∧ 10 ∉ w := by
  induction l generalizing n with
  | nil => cases h
  | cons b bs ih =>
    simp only [rfindNl] at h
    rcases hb : rfindNl bs with _ | i
    · rw [hb] at h
      have h10 : 10 ∉ bs := rfindNl_eq_none.mp hb
      by_cases hbe : b = 10
      · rw [if_pos hbe] at h
        cases h
        exact ⟨[], bs, by simp [hbe], rfl, h10⟩
      · rw [if_neg hbe] at h
        cases h
    · rw [hb] at h
      cases h
      obtain ⟨u, w, hl, hlen, hw⟩ := ih hb
      exact ⟨b :: u, w, by simp [hl], by simp [hlen], hw⟩

lemma takeWhile_all {l : List Byte} (h : 10 ∉ l) : l.takeWhile ne10 = l := by
  induction l with
  | nil => rfl
  | cons b bs ih =>
    simp only [List.mem_cons, not_or] at h
    have hb : ¬b = 10 := fun he => h.1 he.symm
    simp [List.takeWhile_cons, ne10, hb, ih h.2]

lemma takeWhile_break {u v : List Byte} :
    (u ++ 10 :: v).takeWhile ne10 = u.takeWhile ne10 := by
  induction u with
  | nil => simp [List.takeWhile_cons, ne10]
  | cons b us ih =>
    simp only [List.cons_append, List.takeWhile_cons]
    by_cases hb : ne10 b
    · simp [hb, ih]
    · simp [hb]

lemma takeWhile_append_all {u t : List Byte} (h : 10 ∉ u) :
    (u ++ t).takeWhile ne10 = u ++ t.takeWhile ne10 := by
  induction u with
  | nil => rfl
  | cons b us ih =>
    simp only [List.mem_cons, not_or] at h
    have hb : ¬b = 10 := fun he => h.1 he.symm
    simp [List.takeWhile_cons, ne10, hb, ih h.2]

lemma dropWhile_head10 {l x : List Byte} {b : Byte} (h : l.dropWhile ne10 = b :: x) :
    b = 10 := by
  induction l with
  | nil => cases h
  | cons a as ih =>
    rw [List.dropWhile_cons] at h
    by_cases ha : ne10 a
    · rw [if_pos ha] at h
      exact ih h
    · rw [if_neg ha] at h
      cases h
      simpa [ne10] using ha

lemma not_mem_takeWhile_ne10 (l : List Byte) : 10 ∉ l.takeWhile ne10 := by
  intro h
  have := List.mem_takeWhile_imp h
  simp [ne10] at this

/-! Facts about pySplitNl, procLines, bufSlice and longestRun. -/

lemma pySplitNl_ne_nil (l : List Byte) : pySplitNl l ≠ [] := by
  cases l with
  | nil => simp [pySplitNl]
  | cons b bs =>
    simp only [pySplitNl]
    by_cases hb : b = 10
    · simp [hb]
    · rw [if_neg hb]
      rcases h : pySplitNl bs with _ | ⟨s, ss⟩ <;> simp

lemma pySplitNl_cons_nl (v : List Byte) : pySplitNl (10 :: v) = [] :: pySplitNl v := by
  simp [pySplitNl]

lemma pySplitNl_cons_ne {b : Byte} {bs s0 : List Byte} {t0 : List (List Byte)}
    (hb : ¬b = 10) (h0 : pySplitNl bs = s0 :: t0) :
    pySplitNl (b :: bs) = (b :: s0) :: t0 := by
  simp [pySplitNl, if_neg hb, h0]

lemma pySplitNl_append_nl (u v : List Byte) :
    pySplitNl (u ++ 10 :: v) = pySplitNl u ++ pySplitNl v := by
  induction u with
  | nil => simp [pySplitNl]
  | cons b us ih =>
    by_cases hb : b = 10
    · subst hb
      simp only [List.cons_append, pySplitNl_cons_nl, ih]
    · rcases List.exists_cons_of_ne_nil (pySplitNl_ne_nil us) with ⟨s0, ss0, h0⟩
      have h1 : pySplitNl (us ++ 10 :: v) = s0 :: (ss0 ++ pySplitNl v) := by
        rw [ih, h0]
        rfl
      rw [List.cons_append, pySplitNl_cons_ne hb h1, pySplitNl_cons_ne hb h0]
      rfl

lemma pySplitNl_no_nl {l : List Byte} (h : 10 ∉ l) : pySplitNl l = [l] := by
  induction l with
  | nil => rfl
  | cons b bs ih =>
    simp only [List.mem_cons, not_or] at h
    have hb : ¬b = 10 := fun he => h.1 he.symm
    rw [pySplitNl_cons_ne hb (ih h.2)]

lemma pySplitNl_head (l : List Byte) : ∃ t, pySplitNl l = l.takeWhile ne10 :: t := by
  induction l with
  | nil => exact ⟨[], rfl⟩
  | cons b bs ih =>
    by_cases hb : b = 10
    · subst hb
      exact ⟨pySplitNl bs, by simp [pySplitNl_cons_nl, List.takeWhile_cons, ne10]⟩
    · obtain ⟨t, ht⟩ := ih
      refine ⟨t, ?_⟩
      rw [pySplitNl_cons_ne hb ht]
      have hb2 : ne10 b = true := by simp [ne10, hb]
      simp [List.takeWhile_cons, hb2]

lemma pySplitNl_no_mem {l : List Byte} : ∀ s ∈ pySplitNl l, 10 ∉ s := by
  induction l with
  | nil =>
    intro s hs
    simp only [pySplitNl, List.mem_singleton] at hs
    simp [hs]
  | cons b bs ih =>
    intro s hs
    by_cases hb : b = 10
    · subst hb
      rw [pySplitNl_cons_nl] at hs
      rcases List.mem_cons.mp hs with he | hm
      · simp [he]
      · exact ih s hm
    · rcases List.exists_cons_of_ne_nil (pySplitNl_ne_nil bs) with ⟨s0, t0, h0⟩
      rw [pySplitNl_cons_ne hb h0] at hs
      rcases List.mem_cons.mp hs with he | hm
      · subst he
        have h10 : 10 ∉ s0 := ih s0 (by rw [h0]; exact List.mem_cons_self _ _)
        simp only [List.mem_cons, not_or]
        exact ⟨fun he2 => hb he2.symm, h10⟩
      · exact ih s (by rw [h0]; exact List.mem_cons_of_mem _ hm)

/-- Every piece listed after the first one in the LF split is preceded by
an LF in the file and followed by an LF or by the end of the file. -/
lemma seg_tail_decomp : ∀ {X s : List Byte}, s ∈ (pySplitNl X).tail →
    ∃ u w, X = u ++ 10 :: s ++ w ∧ (w = [] ∨ ∃ w2, w = 10 :: w2) := by
  intro X
  induction X with
  | nil =>
    intro s hs
    simp [pySplitNl] at hs
  | cons b bs ih =>
    intro s hs
    by_cases hb : b = 10
    · subst hb
      rw [pySplitNl_cons_nl, List.tail_cons] at hs
      obtain ⟨t1, h1⟩ := pySplitNl_head bs
      rw [h1] at hs
      rcases List.mem_cons.mp hs with he | ht
      · refine ⟨[], bs.dropWhile ne10, ?_, ?_⟩
        · subst he
          simp [List.takeWhile_append_dropWhile]
        · rcases hd : bs.dropWhile ne10 with _ | ⟨x, xs⟩
          · exact Or.inl rfl
          · refine Or.inr ⟨xs, ?_⟩
            rw [← dropWhile_head10 hd]
            try exact hd
      · obtain ⟨u, w, hw, hsh⟩ := ih (by rw [h1, List.tail_cons]; exact ht)
        exact ⟨10 :: u, w, by simp [hw], hsh⟩
    · rcases List.exists_cons_of_ne_nil (pySplitNl_ne_nil bs) with ⟨s0, t0, h0⟩
      rw [pySplitNl_cons_ne hb h0, List.tail_cons] at hs
      obtain ⟨u, w, hw, hsh⟩ := ih (by rw [h0, List.tail_cons]; exact hs)
      exact ⟨b :: u, w, by simp [hw], hsh⟩

lemma procLines_nil : procLines [] = [] := rfl

lemma procLines_cons_nl (v : List Byte) : procLines (10 :: v) = procLines v := by
  simp [procLines, pySplitNl_cons_nl, List.filter_append]

lemma procLines_append_nl (u v : List Byte) :
    procLines (u ++ 10 :: v) = procLines v ++ procLines u := by
  simp [procLines, pySplitNl_append_nl, List.reverse_append, List.filter_append,
    List.map_append]

lemma procLines_no_nl {l : List Byte} (h : 10 ∉ l) :
    procLines l = if l.isEmpty then [] else [normLine l] := by
  rw [procLines, pySplitNl_no_nl h]
  cases l <;> simp

lemma bufSlice_refl (f : List Byte) (a : Nat) : bufSlice f a a = [] := by
  simp [bufSlice]

lemma bufSlice_length {f : List Byte} {a b : Nat} (h1 : a ≤ b) (h2 : b ≤ f.length) :
    (bufSlice f a b).length = b - a := by
  simp only [bufSlice, List.length_take, List.length_drop]
  omega

lemma bufSlice_append {f : List Byte} {a b c : Nat} (h1 : a ≤ b) (h2 : b ≤ c) :
    bufSlice f a b ++ bufSlice f b c = bufSlice f a c := by
  unfold bufSlice
  have hd : f.drop b = (f.drop a).drop (b - a) := by
    rw [List.drop_drop]
    congr 1
    omega
  rw [hd, ← List.take_add]
  congr 1
  omega

lemma bufSlice_take {f : List Byte} {a b k : Nat} (hk : k ≤ b - a) :
    (bufSlice f a b).take k = bufSlice f a (a + k) := by
  unfold bufSlice
  rw [List.take_take]
  congr 1
  omega

lemma bufSlice_decomp {f : List Byte} {a b : Nat} (h1 : a ≤ b) :
    f = f.take a ++ bufSlice f a b ++ f.drop b := by
  conv_lhs => rw [← List.take_append_drop a f]
  rw [List.append_assoc]
  congr 1
  have hd : f.drop b = (f.drop a).drop (b - a) := by
    rw [List.drop_drop]
    congr 1
    omega
  rw [hd, bufSlice]
  exact (List.take_append_drop _ _).symm

lemma le_foldr_max {L : List Nat} {a : Nat} (h : a ∈ L) : a ≤ L.foldr max 0 := by
  induction L with
  | nil => cases h
  | cons x xs ih =>
    rcases List.mem_cons.mp h with he | hm
    · subst he
      exact le_max_left _ _
    · exact le_trans (ih hm) (le_max_right _ _)

lemma le_longestRun_of_mem {l s : List Byte} (h : s ∈ pySplitNl l) :
    s.length ≤ longestRun l :=
  le_foldr_max (List.mem_map_of_mem _ h)

lemma longestRun_cons (b : Byte) (l : List Byte) :
    longestRun l ≤ longestRun (b :: l) := by
  by_cases hb : b = 10
  · subst hb
    unfold longestRun
    rw [pySplitNl_cons_nl]
    simp
  · rcases List.exists_cons_of_ne_nil (pySplitNl_ne_nil l) with ⟨s0, t0, h0⟩
    unfold longestRun
    rw [pySplitNl_cons_ne hb h0, h0]
    simp only [List.map_cons, List.foldr_cons, List.length_cons]
    omega

lemma nlfree_part_le_longestRun : ∀ (s u t : List Byte), 10 ∉ u →
    u.length ≤ longestRun (s ++ u ++ t) := by
  intro s
  induction s with
  | nil =>
    intro u t hu
    have h1 : (u ++ t).takeWhile ne10 = u ++ t.takeWhile ne10 := takeWhile_append_all hu
    obtain ⟨tt, hh⟩ := pySplitNl_head (u ++ t)
    have h2 : (u ++ t).takeWhile ne10 ∈ pySplitNl (u ++ t) := by
      rw [hh]
      exact List.mem_cons_self _ _
    have h3 := le_longestRun_of_mem h2
    rw [h1] at h3
    simp only [List.length_append] at h3
    simpa using le_trans (Nat.le_add_right _ _) h3
  | cons b s2 ih =>
    intro u t hu
    have h4 : (b :: s2) ++ u ++ t = b :: (s2 ++ u ++ t) := by simp
    rw [h4]
    exact le_trans (ih u t hu) (longestRun_cons _ _)

/-! Behaviour of the inner loop. On a buffer all of whose candidate pieces
decode, it removes every complete line, appending the normalized nonempty
ones in reverse order, and leaves exactly the part before the first LF. -/

lemma drainF_spec : ∀ (fuel : Nat) (B : List Byte) (L : List (List Byte)),
    B.length ≤ fuel →
    (∀ s ∈ (pySplitNl B).tail, utf8Valid s = true) →
    drainF fuel B L =
      (B.takeWhile ne10,
       L ++ ((pySplitNl B).tail.reverse.filter (fun s => !s.isEmpty)).map normLine) := by
  intro fuel
  induction fuel with
  | zero =>
    intro B L hlen hseg
    have hB : B = [] := List.length_eq_zero.mp (Nat.le_zero.mp hlen)
    subst hB
    simp [drainF, pySplitNl]
  | succ fuel ih =>
    intro B L hlen hseg
    rcases hr : rfindNl B with _ | nl
    · have h10 : 10 ∉ B := rfindNl_eq_none.mp hr
      simp [drainF, hr, takeWhile_all h10, pySplitNl_no_nl h10]
    · obtain ⟨u, w, hB, hlen_u, hw⟩ := rfindNl_some_decomp hr
      subst hB
      have hsplitB : pySplitNl (u ++ 10 :: w) = pySplitNl u ++ [w] := by
        rw [pySplitNl_append_nl, pySplitNl_no_nl hw]
      rcases List.exists_cons_of_ne_nil (pySplitNl_ne_nil u) with ⟨s0, t0, h0⟩
      have htailB : (pySplitNl (u ++ 10 :: w)).tail = t0 ++ [w] := by
        rw [hsplitB, h0]
        rfl
      have hw_valid : utf8Valid w = true := by
        apply hseg
        rw [htailB]
        simp
      have hdrop : (u ++ 10 :: w).drop (nl + 1) = w := by
        rw [List.drop_append_eq_append_drop,
          List.drop_of_length_le (by omega : u.length ≤ nl + 1),
          show nl + 1 - u.length = 1 by omega]
        rfl
      have htake : (u ++ 10 :: w).take (nl + 1) = u ++ [10] := by
        rw [List.take_append_eq_append_take,
          List.take_of_length_le (by omega : u.length ≤ nl + 1),
          show nl + 1 - u.length = 1 by omega]
        rfl
      have htake2 : (u ++ [10]).take nl = u := by
        rw [List.take_append_eq_append_take,
          List.take_of_length_le (by omega : u.length ≤ nl),
          show nl - u.length = 0 by omega]
        simp
      have hstep : drainF (fuel + 1) (u ++ 10 :: w) L =
          drainF fuel u (if 0 < w.length then L ++ [normLine w] else L) := by
        simp only [drainF, hr, hdrop, htake, htake2, hw_valid, if_true]
      have hlen2 : u.length ≤ fuel := by
        have := hlen
        simp only [List.length_append, List.length_cons] at this
        omega
      have hseg2 : ∀ s ∈ (pySplitNl u).tail, utf8Valid s = true := by
        intro s hs
        apply hseg
        rw [htailB]
        rw [h0, List.tail_cons] at hs
        exact List.mem_append_left _ hs
      rw [hstep, ih _ _ hlen2 hseg2, takeWhile_break, htailB, h0, List.tail_cons,
        List.reverse_append, List.reverse_singleton, List.singleton_append,
        List.filter_cons]
      rcases hwc : w with _ | ⟨x, xs⟩
      · simp
      · rw [← hwc]
        have hne : (!w.isEmpty) = true := by
          rw [hwc]
          rfl
        have hpos : 0 < w.length := by
          rw [hwc]
          simp
        rw [if_pos hpos, hne]
        simp

/-- Candidate validity transfer: inside a file that decodes as UTF-8, a
piece that sits between an LF byte and either another LF byte or the end
of the file decodes on its own, because LF bytes never occur inside a
multi-byte character. -/
lemma valid_between_nl {f A s R : List Byte} (hval : utf8Valid f = true)
    (hdec : f = A ++ 10 :: s ++ R) (hR : R = [] ∨ ∃ R2, R = 10 :: R2) :
    utf8Valid s = true := by
  subst hdec
  have hval2 : utf8Valid (A ++ 10 :: (s ++ R)) = true := by
    simpa [List.append_assoc] using hval
  have h1 := (utf8_split_nl hval2).2
  rcases hR with h | ⟨R2, h⟩
  · subst h
    simpa using h1
  · subst h
    exact (utf8_split_nl h1).1

lemma takeWhile_as_take (l : List Byte) :
    l.takeWhile ne10 = l.take (l.takeWhile ne10).length := by
  induction l with
  | nil => rfl
  | cons b bs ih =>
    rw [List.takeWhile_cons]
    by_cases hb : ne10 b
    · rw [if_pos hb]
      simp only [List.length_cons, List.take_succ_cons]
      rw [← ih]
    · rw [if_neg hb]
      rfl

lemma drop_mid {P T D S : List Byte} :
    (P ++ (T ++ D) ++ S).drop (P.length + T.length) = D ++ S := by
  rw [show P ++ (T ++ D) ++ S = (P ++ T) ++ (D ++ S) by simp [List.append_assoc]]
  rw [List.drop_append_eq_append_drop]
  simp

/-- One outer iteration preserves the invariant: the freshly prepended
buffer is exactly the slice from the new cursor to the boundary, and
draining it moves the boundary down to the first LF of that slice while
emitting exactly the reference lines in between. -/
lemma step_inv {f : List Byte} {c p : Nat} {buffer : List Byte} {lines : List (List Byte)}
    (hval : utf8Valid f = true) (hinv : Inv f p buffer lines) :
    bufSlice f (p - min c p) p ++ buffer = bufSlice f (p - min c p) (p + buffer.length) ∧
    Inv f (p - min c p)
      (drainF (bufSlice f (p - min c p) p ++ buffer).length
        (bufSlice f (p - min c p) p ++ buffer) lines).1
      (drainF (bufSlice f (p - min c p) p ++ buffer).length
        (bufSlice f (p - min c p) p ++ buffer) lines).2 := by
  obtain ⟨hbuf, hβN, h10, hbound, hlines⟩ := hinv
  set p2 := p - min c p with hp2
  set β := p + buffer.length with hβ
  have hp2p : p2 ≤ p := Nat.sub_le _ _
  have hpβ : p ≤ β := Nat.le_add_right _ _
  have happ : bufSlice f p2 p ++ buffer = bufSlice f p2 β := by
    conv_lhs => rw [hbuf]
    exact bufSlice_append hp2p hpβ
  refine ⟨happ, ?_⟩
  rw [happ]
  set B := bufSlice f p2 β with hB
  have hfdec : f = f.take p2 ++ B ++ f.drop β := bufSlice_decomp (le_trans hp2p hpβ)
  have hdropβ : (∃ R2, f.drop β = 10 :: R2) ∨ f.drop β = [] := by
    rcases hbound with hb | hb
    · right
      rw [hb, List.drop_length]
    · left
      rcases hd : f.drop β with _ | ⟨x, xs⟩
      · rw [hd] at hb
        cases hb
      · rw [hd] at hb
        simp only [List.head?_cons, Option.some.injEq] at hb
        exact ⟨xs, by rw [hb]⟩
  have hseg : ∀ s ∈ (pySplitNl B).tail, utf8Valid s = true := by
    intro s hs
    obtain ⟨u, w, hBdec, hwsh⟩ := seg_tail_decomp hs
    have hfdec2 : f = (f.take p2 ++ u) ++ 10 :: s ++ (w ++ f.drop β) := by
      conv_lhs => rw [hfdec, hBdec]
      simp [List.append_assoc]
    apply valid_between_nl hval hfdec2
    rcases hwsh with hwe | ⟨w2, hw2⟩
    · subst hwe
      simp only [List.nil_append]
      rcases hdropβ with ⟨R2, hR2⟩ | hnil
      · exact Or.inr ⟨R2, hR2⟩
      · exact Or.inl hnil
    · subst hw2
      exact Or.inr ⟨w2 ++ f.drop β, by simp⟩
  have hdspec := drainF_spec B.length B lines (le_refl _) hseg
  have hd1 : (drainF B.length B lines).1 = B.takeWhile ne10 := by rw [hdspec]
  have hd2 : (drainF B.length B lines).2 =
      lines ++ (List.filter (fun s => !s.isEmpty) (pySplitNl B).tail.reverse).map normLine := by
    rw [hdspec]
  rw [hd1, hd2]
  set T := B.takeWhile ne10 with hT
  set D := B.dropWhile ne10 with hD
  have hTD : T ++ D = B := List.takeWhile_append_dropWhile _ _
  have hβf : β ≤ f.length := hβN
  have hBlen : B.length = β - p2 := bufSlice_length (le_trans hp2p hpβ) hβf
  have hTlen : T.length ≤ B.length := by
    rw [← hTD]
    simp
  have hTtake : T = B.take T.length := by
    rw [hT]
    exact takeWhile_as_take B
  have hTslice : T = bufSlice f p2 (p2 + T.length) := by
    conv_rhs => rw [← bufSlice_take (show T.length ≤ β - p2 by omega), ← hB]
    exact hTtake
  have hdrop_mid : f.drop (p2 + T.length) = D ++ f.drop β := by
    conv_lhs => rw [hfdec, ← hTD]
    rw [show p2 + T.length = (f.take p2).length + T.length by
      rw [List.length_take]
      omega]
    exact drop_mid
  unfold Inv
  refine ⟨?_, ?_, ?_, ?_, ?_⟩
  · exact hTslice
  · omega
  · exact not_mem_takeWhile_ne10 _
  · rcases hDc : D with _ | ⟨x, xs⟩
    · have hTB : T.length = B.length := by
        rw [hDc] at hTD
        simp only [List.append_nil] at hTD
        rw [hTD]
      have hpTβ : p2 + T.length = β := by omega
      rw [hpTβ]
      exact hbound
    · right
      have hx : x = 10 := dropWhile_head10 (by rw [← hDc, hD])
      rw [hdrop_mid, hDc, hx]
      rfl
  · rcases hDc : D with _ | ⟨x, xs⟩
    · rw [hDc] at hTD
      simp only [List.append_nil] at hTD
      have hsB : pySplitNl B = [B] := by
        refine pySplitNl_no_nl ?_
        rw [← hTD]
        exact not_mem_takeWhile_ne10 _
      have hTB : T.length = B.length := by rw [hTD]
      have hpTβ : p2 + T.length = β := by omega
      rw [hsB]
      simp only [List.tail_cons, List.reverse_nil, List.filter_nil, List.map_nil,
        List.append_nil]
      rw [hlines, hpTβ]
    · have hx : x = 10 := dropWhile_head10 (by rw [← hDc, hD])
      subst hx
      have h10T : 10 ∉ T := not_mem_takeWhile_ne10 _
      have hsB : pySplitNl B = [T] ++ pySplitNl xs := by
        rw [← hTD, hDc, pySplitNl_append_nl, pySplitNl_no_nl h10T]
      have htail : (pySplitNl B).tail = pySplitNl xs := by
        rw [hsB]
        rfl
      rw [htail, hdrop_mid, hDc, hlines]
      have hM : List.map normLine (List.filter (fun s => !s.isEmpty) (pySplitNl xs).reverse)
          = procLines xs := rfl
      rw [hM]
      rcases hdropβ with ⟨R2, hR2⟩ | hnil
      · rw [hR2, procLines_cons_nl,
          show (10 :: xs) ++ (10 :: R2) = 10 :: (xs ++ 10 :: R2) from rfl,
          procLines_cons_nl, procLines_append_nl]
      · rw [hnil]
        simp [procLines_nil, procLines_cons_nl]
/-- Full behaviour of the outer loop from any state satisfying the
invariant, for a file that decodes as UTF-8 and a positive chunk size: the
loop ends with the LF-free head piece of the file as buffer and the
reference lines of the rest of the file as gathered lines, and the peak
buffer length stays bounded by the chunk size plus the longest LF-free
run of the file. -/
lemma scan_spec {f : List Byte} {c : Nat} (hval : utf8Valid f = true) (hc : 1 ≤ c) :
    ∀ p fuel (buffer : List Byte) (lines : List (List Byte)) (peak : Nat),
      p ≤ fuel → Inv f p buffer lines →
      ∃ pk, scanLoopF f c fuel p buffer lines peak =
        (f.takeWhile ne10, procLines (f.drop (f.takeWhile ne10).length), pk) ∧
        pk ≤ max peak (c + longestRun f) := by
  intro p
  induction p using Nat.strong_induction_on with
  | _ p ih =>
    intro fuel buffer lines peak hfuel hinv
    have hinv2 := hinv
    obtain ⟨hbuf, hβN, h10, hbound, hlines⟩ := hinv2
    by_cases hp0 : p = 0
    · subst hp0
      have hstop : scanLoopF f c fuel 0 buffer lines peak = (buffer, lines, peak) := by
        cases fuel <;> simp [scanLoopF]
      have hbuf0 : buffer = f.take buffer.length := by
        conv_lhs => rw [hbuf]
        simp [bufSlice]
      have hTbuf : f.takeWhile ne10 = buffer := by
        rcases hbound with hb | hb
        · simp only [Nat.zero_add] at hb
          have hbf : buffer = f := by
            rw [hbuf0, hb, List.take_length]
          rw [hbf]
          rw [hbf] at h10
          exact takeWhile_all h10
        · simp only [Nat.zero_add] at hb
          rcases hd : f.drop buffer.length with _ | ⟨x, xs⟩
          · rw [hd] at hb
            cases hb
          · rw [hd] at hb
            simp only [List.head?_cons, Option.some.injEq] at hb
            subst hb
            have hfsplit : f = buffer ++ 10 :: xs := by
              conv_lhs => rw [← List.take_append_drop buffer.length f, ← hbuf0, hd]
            rw [hfsplit, takeWhile_break, takeWhile_all h10]
      refine ⟨peak, ?_, le_max_left _ _⟩
      rw [hstop, hTbuf]
      simp only [Nat.zero_add] at hlines
      rw [hlines]
    · rcases fuel with _ | fuel2
      · omega
      · have hunf : scanLoopF f c (fuel2 + 1) p buffer lines peak =
            scanLoopF f c fuel2 (p - min c p)
              (drainF (bufSlice f (p - min c p) p ++ buffer).length
                (bufSlice f (p - min c p) p ++ buffer) lines).1
              (drainF (bufSlice f (p - min c p) p ++ buffer).length
                (bufSlice f (p - min c p) p ++ buffer) lines).2
              (max peak (bufSlice f (p - min c p) p ++ buffer).length) := by
          simp only [scanLoopF, if_neg hp0]
        obtain ⟨happ, hinvstep⟩ := step_inv (c := c) hval hinv
        have hlt : p - min c p < p := by omega
        have hfuel2 : p - min c p ≤ fuel2 := by omega
        obtain ⟨pk, hrun, hpk⟩ := ih _ hlt fuel2 _ _ _ hfuel2 hinvstep
        refine ⟨pk, ?_, ?_⟩
        · rw [hunf, hrun]
        · have hchunk : (bufSlice f (p - min c p) p).length ≤ c := by
            simp only [bufSlice, List.length_take]
            omega
          have hfeq : f.take p ++ buffer ++ f.drop (p + buffer.length) = f := by
            conv_rhs => rw [bufSlice_decomp (f := f) (Nat.le_add_right p buffer.length), ← hbuf]
          have hblen : buffer.length ≤ longestRun f := by
            have hle := nlfree_part_le_longestRun (f.take p) buffer
              (f.drop (p + buffer.length)) h10
            rwa [hfeq] at hle
          have hbuf2 : (bufSlice f (p - min c p) p ++ buffer).length ≤ c + longestRun f := by
            simp only [List.length_append]
            omega
          omega

lemma Inv_init (f : List Byte) : Inv f f.length [] [] := by
  unfold Inv
  refine ⟨by simp [bufSlice], by simp, by simp, Or.inl (by simp), ?_⟩
  simp [procLines_nil]

lemma drop_takeWhile_len (f : List Byte) :
    f.drop (f.takeWhile ne10).length = f.dropWhile ne10 := by
  conv_lhs => rw [← List.takeWhile_append_dropWhile (p := ne10) (l := f)]
  rw [List.drop_append_eq_append_drop]
  simp

/-- Central lemma: on a file that decodes as UTF-8, the chunked reverse
scan returns exactly the reference lines, whatever the chunk size, as long
as it is at least one. -/
lemma reverse_lines_chunked_eq {f : List Byte} {c : Nat}
    (hval : utf8Valid f = true) (hc : 1 ≤ c) :
    reverse_lines_chunked f c = procLines f := by
  obtain ⟨pk, hrun, -⟩ :=
    scan_spec hval hc f.length f.length [] [] 0 (le_refl _) (Inv_init f)
  set T := f.takeWhile ne10 with hT
  unfold reverse_lines_chunked
  rw [hrun]
  dsimp only
  have hTD : T ++ f.dropWhile ne10 = f := List.takeWhile_append_dropWhile _ _
  have hdropT : f.drop T.length = f.dropWhile ne10 := drop_takeWhile_len f
  have h10T : 10 ∉ T := not_mem_takeWhile_ne10 _
  by_cases hTe : T.isEmpty
  · rw [if_pos hTe]
    have hT0 : T = [] := by
      rwa [List.isEmpty_iff] at hTe
    rw [hT0]
    simp
  · rw [if_neg hTe]
    have hTne : ¬T = [] := by
      rwa [List.isEmpty_iff] at hTe
    rcases hD : f.dropWhile ne10 with _ | ⟨x, xs⟩
    · have hfT : f = T := by
        rw [← hTD, hD, List.append_nil]
      have hvT : utf8Valid T = true := by
        rw [← hfT]
        exact hval
      rw [if_pos hvT, hdropT, hD]
      rw [procLines_nil]
      have hpT : procLines f = [normLine T] := by
        rw [hfT, procLines_no_nl h10T]
        simp [hTne]
      rw [hpT]
      rfl
    · have hx : x = 10 := dropWhile_head10 hD
      subst hx
      have hfT : f = T ++ 10 :: xs := by
        rw [← hTD, hD]
      have hvT : utf8Valid T = true := by
        have h2 : utf8Valid (T ++ 10 :: xs) = true := by
          rw [← hfT]
          exact hval
        exact (utf8_split_nl h2).1
      rw [if_pos hvT, hdropT, hD]
      have hpf : procLines f = procLines xs ++ [normLine T] := by
        rw [hfT, procLines_append_nl, procLines_no_nl h10T]
        simp [hTne]
      rw [hpf, procLines_cons_nl]

/-- Termination of the outer loop: with a positive chunk size the cursor
strictly decreases at every iteration, so any two fuel values of at least
the cursor compute the same result. -/
lemma scanLoopF_fuel_irrel {f : List Byte} {c : Nat} (hc : 1 ≤ c) :
    ∀ p fuel1 fuel2 (buffer : List Byte) (lines : List (List Byte)) (peak : Nat),
      p ≤ fuel1 → p ≤ fuel2 →
      scanLoopF f c fuel1 p buffer lines peak = scanLoopF f c fuel2 p buffer lines peak := by
  intro p
  induction p using Nat.strong_induction_on with
  | _ p ih =>
    intro fuel1 fuel2 buffer lines peak h1 h2
    by_cases hp0 : p = 0
    · subst hp0
      have e1 : scanLoopF f c fuel1 0 buffer lines peak = (buffer, lines, peak) := by
        cases fuel1 <;> simp [scanLoopF]
      have e2 : scanLoopF f c fuel2 0 buffer lines peak = (buffer, lines, peak) := by
        cases fuel2 <;> simp [scanLoopF]
      rw [e1, e2]
    · rcases fuel1 with _ | g1
      · omega
      rcases fuel2 with _ | g2
      · omega
      simp only [scanLoopF, if_neg hp0]
      exact ih _ (by omega) g1 g2 _ _ _ (by omega) (by omega)

/-- The error-model scan can only raise while the invariant holds, so the
lines it carries out with the exception are exactly the reference lines of
the already processed suffix of the file. -/
lemma scanExF_error_inv {f : List Byte} {fb c : Nat} (hval : utf8Valid f = true)
    (hc : 1 ≤ c) :
    ∀ fuel p (buffer : List Byte) (lines L : List (List Byte)), p ≤ fuel →
      Inv f p buffer lines →
      scanExF ⟨f, fb⟩ c fuel p buffer lines = .error L →
      ∃ β, β ≤ f.length ∧ L = procLines (f.drop β) := by
  intro fuel
  induction fuel with
  | zero =>
    intro p buffer lines L hfuel hinv herr
    simp [scanExF] at herr
  | succ fuel ih =>
    intro p buffer lines L hfuel hinv herr
    by_cases hp0 : p = 0
    · subst hp0
      simp [scanExF] at herr
    · simp only [scanExF, if_neg hp0] at herr
      by_cases hfail : p - min c p < fb
      · rw [if_pos hfail] at herr
        simp only [Except.error.injEq] at herr
        obtain ⟨-, hβN, -, -, hlines⟩ := hinv
        exact ⟨p + buffer.length, hβN, by rw [← herr, hlines]⟩
      · rw [if_neg hfail] at herr
        obtain ⟨-, hinvstep⟩ := step_inv (c := c) hval hinv
        exact ih _ _ _ _ (by omega) hinvstep herr

lemma mem_of_mem_dropWhile {p : Byte → Bool} {l : List Byte} {b : Byte}
    (h : b ∈ l.dropWhile p) : b ∈ l := by
  induction l with
  | nil => simp at h
  | cons x xs ih =>
    rw [List.dropWhile_cons] at h
    by_cases hx : p x
    · rw [if_pos hx] at h
      exact List.mem_cons_of_mem _ (ih h)
    · rw [if_neg hx] at h
      exact h

lemma mem_rstripCR {l : List Byte} {b : Byte} (h : b ∈ rstripCR l) : b ∈ l := by
  unfold rstripCR at h
  rw [List.mem_reverse] at h
  have h2 := mem_of_mem_dropWhile h
  rwa [List.mem_reverse] at h2

lemma rstripCR_no_cr {l : List Byte} (h : l.getLast? ≠ some 13) : rstripCR l = l := by
  unfold rstripCR
  rcases hl : l.reverse with _ | ⟨x, xs⟩
  · rw [List.reverse_eq_nil_iff] at hl
    rw [hl]
    rfl
  · have hx : l.getLast? = some x := by
      rw [← List.head?_reverse, hl]
      rfl
    have hx13 : ¬(x == 13) = true := by
      intro hb
      rw [beq_iff_eq] at hb
      rw [hb] at hx
      exact h hx
    rw [List.dropWhile_cons, if_neg hx13, ← hl, List.reverse_reverse]

lemma rstripCR_concat_cr (l : List Byte) : rstripCR (l ++ [13]) = rstripCR l := by
  unfold rstripCR
  rw [List.reverse_append]
  rfl

lemma rstripCR_eq_stripOneCR {s : List Byte}
    (h : s.getLast? = some 13 → s.dropLast.getLast? ≠ some 13) :
    rstripCR s = stripOneCR s := by
  unfold stripOneCR
  by_cases hl : s.getLast? = some 13
  · rw [if_pos hl]
    have hne : s ≠ [] := by
      intro he
      rw [he] at hl
      cases hl
    have hgl : s.getLast hne = 13 := by
      have := List.getLast?_eq_getLast s hne
      rw [hl] at this
      exact (Option.some.injEq _ _ ▸ this.symm)
    have hs : s.dropLast ++ [13] = s := by
      conv_rhs => rw [← List.dropLast_append_getLast hne]
      rw [hgl]
    rw [← hs, rstripCR_concat_cr, List.dropLast_concat]
    exact rstripCR_no_cr (h hl)
  · rw [if_neg hl]
    exact rstripCR_no_cr hl

/-! Claim theorems. -/

/-- Claim C1, counterexample. For the two-byte file made of two LF bytes,
every line is an empty LF-terminated span: the scan emits nothing, so the
concatenation of the reversed output is empty, while the forward line
sequence with normalized terminators reproduces the file. The round trip
stated by the claim therefore fails on this file. -/
theorem C1_counterexample :
    List.flatten ((reverse_lines_chunked [10, 10] 1).reverse) ≠
      List.flatten (specForwardLines [10, 10]) := by
  decide

/-- Claim C1, amended. For every UTF-8-valid file and chunk size at least
one, reversing the returned list reproduces the forward line sequence with
terminators normalized to LF, provided that no terminated line span is
empty, that no terminated line span ends with two CR bytes (the scan
strips all trailing CR bytes, the forward normalization only the
terminator one), and that the final unterminated span does not end with a
CR byte. -/
theorem C1_round_trip (f : List Byte) (c : Nat) (hval : utf8Valid f = true)
    (hc : 1 ≤ c)
    (hinit : ∀ s ∈ (pySplitNl f).dropLast,
      s ≠ [] ∧ (s.getLast? = some 13 → s.dropLast.getLast? ≠ some 13))
    (hlast : (((pySplitNl f).getLast?).getD []).getLast? ≠ some 13) :
    (reverse_lines_chunked f c).reverse = specForwardLines f := by
  rw [reverse_lines_chunked_eq hval hc]
  have hne : pySplitNl f ≠ [] := pySplitNl_ne_nil f
  have hsplit : (pySplitNl f).dropLast ++ [(pySplitNl f).getLast hne] = pySplitNl f :=
    List.dropLast_append_getLast hne
  have hgl : (pySplitNl f).getLast? = some ((pySplitNl f).getLast hne) :=
    List.getLast?_eq_getLast _ hne
  rw [hgl] at hlast
  simp only [Option.getD_some] at hlast
  unfold procLines specForwardLines
  rw [List.filter_reverse, List.map_reverse, List.reverse_reverse]
  simp only [hgl]
  conv_lhs => rw [← hsplit]
  rw [List.filter_append, List.map_append]
  have hinitkeep : ((pySplitNl f).dropLast.filter (fun s => !s.isEmpty)) =
      (pySplitNl f).dropLast := by
    rw [List.filter_eq_self]
    intro s hs
    have := (hinit s hs).1
    simp [this]
  rw [hinitkeep]
  congr 1
  · apply List.map_congr_left
    intro s hs
    unfold normLine
    rw [rstripCR_eq_stripOneCR (hinit s hs).2]
  · rcases hLe : ((pySplitNl f).getLast hne).isEmpty with _ | _
    · simp [hLe, normLine, rstripCR_no_cr hlast]
    · simp [hLe]

/-- Claim C1, witness at the file a CR LF b: a CRLF terminated line plus
an unterminated final line. -/
theorem C1_round_trip_witness :
    utf8Valid [97, 13, 10, 98] = true ∧
    (∀ s ∈ (pySplitNl [97, 13, 10, 98]).dropLast,
      s ≠ [] ∧ (s.getLast? = some 13 → s.dropLast.getLast? ≠ some 13)) ∧
    (((pySplitNl [97, 13, 10, 98]).getLast?).getD []).getLast? ≠ some 13 ∧
    (reverse_lines_chunked [97, 13, 10, 98] 1).reverse = specForwardLines [97, 13, 10, 98] :=
  ⟨by decide, by decide, by decide,
    C1_round_trip _ _ (by decide) (by decide) (by decide) (by decide)⟩

/-- Claim C2, counterexample. In the file a LF LF b LF the empty span
between the first two LF bytes lies between two terminators and is not the
final byte of the file, yet no empty line appears in the output: the
emptiness check of the source drops it. -/
theorem C2_counterexample :
    reverse_lines_chunked [97, 10, 10, 98, 10] 2 = [[98, 10], [97, 10]] ∧
    [10] ∉ reverse_lines_chunked [97, 10, 10, 98, 10] 2 := by
  decide

/-- Claim C2, amended. An empty span whose terminator is a bare LF is
always omitted from the output, wherever it occurs (the output is the one
of the file with that empty line deleted); an empty span terminated by CR
LF is preserved and emitted as the line LF, because its candidate span
still holds the CR byte. -/
theorem C2_empty_lines (u v : List Byte) (c : Nat) (hc : 1 ≤ c)
    (h1 : utf8Valid (u ++ 10 :: 10 :: v) = true)
    (h2 : utf8Valid (u ++ 10 :: 13 :: 10 :: v) = true) :
    reverse_lines_chunked (u ++ 10 :: 10 :: v) c = reverse_lines_chunked (u ++ 10 :: v) c ∧
    reverse_lines_chunked (u ++ 10 :: 13 :: 10 :: v) c =
      procLines v ++ [10] :: procLines u := by
  constructor
  · have hsplit1 := utf8_split_nl (u := u) (v := 10 :: v) h1
    have hv : utf8Valid v = true := by
      have h10v : utf8Valid ([] ++ 10 :: v) = true := by
        simpa using hsplit1.2
      exact (utf8_split_nl h10v).2
    have huv : utf8Valid (u ++ 10 :: v) = true := utf8_join_nl hsplit1.1 hv
    rw [reverse_lines_chunked_eq h1 hc, reverse_lines_chunked_eq huv hc,
      procLines_append_nl, procLines_append_nl, procLines_cons_nl]
  · rw [reverse_lines_chunked_eq h2 hc,
      show u ++ 10 :: 13 :: 10 :: v = u ++ 10 :: ([13] ++ 10 :: v) from rfl,
      procLines_append_nl, procLines_append_nl]
    have h13 : procLines [13] = [[10]] := by decide
    rw [h13]
    simp

/-- Claim C2, witness with u the byte a and v the bytes b LF. -/
theorem C2_empty_lines_witness :
    utf8Valid [97, 10, 10, 98, 10] = true ∧
    utf8Valid [97, 10, 13, 10, 98, 10] = true ∧
    (reverse_lines_chunked [97, 10, 10, 98, 10] 1 = reverse_lines_chunked [97, 10, 98, 10] 1 ∧
      reverse_lines_chunked [97, 10, 13, 10, 98, 10] 1 =
        procLines [98, 10] ++ [10] :: procLines [97]) :=
  ⟨by decide, by decide, C2_empty_lines [97] [98, 10] 1 (by decide) (by decide) (by decide)⟩

/-- Claim C3, counterexample. On a file that does not decode as UTF-8 the
output depends on the chunk size: with chunk size one the rotation
performed by the decode-failure handler lets a later line be assembled and
emitted, with chunk size five the whole buffer is rejected at the end and
dropped. -/
theorem C3_counterexample :
    reverse_lines_chunked [195, 10, 195, 10, 128] 1 ≠
      reverse_lines_chunked [195, 10, 195, 10, 128] 5 := by
  decide

/-- Claim C3, amended. For every file that decodes as UTF-8 the returned
list is the same for all chunk sizes at least one. -/
theorem C3_chunk_independent (f : List Byte) (c1 c2 : Nat) (hval : utf8Valid f = true)
    (h1 : 1 ≤ c1) (h2 : 1 ≤ c2) :
    reverse_lines_chunked f c1 = reverse_lines_chunked f c2 := by
  rw [reverse_lines_chunked_eq hval h1, reverse_lines_chunked_eq hval h2]

/-- Claim C3, witness: chunk sizes one and four on the file a LF b. -/
theorem C3_chunk_independent_witness :
    utf8Valid [97, 10, 98] = true ∧
    reverse_lines_chunked [97, 10, 98] 1 = reverse_lines_chunked [97, 10, 98] 4 :=
  ⟨by decide, C3_chunk_independent [97, 10, 98] 1 4 (by decide) (by decide) (by decide)⟩

/-- Claim C4, counterexample. On the file LF C3 with chunk size two the
candidate after the LF does not decode, and the handler re-merges it at
the front of the buffer: the scan ends with buffer C3 LF and no emitted
line, so with the boundary at the end of the file the buffer is a
reordering, not the slice, of the bytes between cursor and boundary. -/
theorem C4_counterexample :
    (scanLoopF [10, 195] 2 2 2 [] [] 0).1 = [195, 10] ∧
    (scanLoopF [10, 195] 2 2 2 [] [] 0).2.1 = [] ∧
    (scanLoopF [10, 195] 2 2 2 [] [] 0).1 ≠ bufSlice [10, 195] 0 2 := by
  decide

/-- Claim C4, amended. For a file that decodes as UTF-8 (where the
decode-failure re-merge never fires) the buffer invariant holds at every
outer iteration: right after the prepend the buffer is exactly the slice
of the file from the cursor to the boundary, and after draining, the
invariant is re-established at the new cursor, with no byte dropped,
duplicated or reordered. -/
theorem C4_buffer_invariant (f : List Byte) (c p : Nat) (buffer : List Byte)
    (lines : List (List Byte)) (hval : utf8Valid f = true)
    (hinv : Inv f p buffer lines) :
    bufSlice f (p - min c p) p ++ buffer = bufSlice f (p - min c p) (p + buffer.length) ∧
    Inv f (p - min c p)
      (drainF (bufSlice f (p - min c p) p ++ buffer).length
        (bufSlice f (p - min c p) p ++ buffer) lines).1
      (drainF (bufSlice f (p - min c p) p ++ buffer).length
        (bufSlice f (p - min c p) p ++ buffer) lines).2 :=
  step_inv hval hinv

/-- Claim C4, witness at the file a LF with cursor two and chunk one. -/
theorem C4_buffer_invariant_witness :
    utf8Valid [97, 10] = true ∧
    Inv [97, 10] 2 [] [] ∧
    (bufSlice [97, 10] (2 - min 1 2) 2 ++ [] =
        bufSlice [97, 10] (2 - min 1 2) (2 + List.length ([] : List Byte)) ∧
      Inv [97, 10] (2 - min 1 2)
        (drainF (bufSlice [97, 10] (2 - min 1 2) 2 ++ []).length
          (bufSlice [97, 10] (2 - min 1 2) 2 ++ []) []).1
        (drainF (bufSlice [97, 10] (2 - min 1 2) 2 ++ []).length
          (bufSlice [97, 10] (2 - min 1 2) 2 ++ []) []).2) :=
  ⟨by decide, by decide, C4_buffer_invariant [97, 10] 1 2 [] [] (by decide) (by decide)⟩

/-- Claim C5, counterexample. The source strips every trailing CR byte,
not a single one: on the file a CR CR LF the emitted line is a LF, not
the a CR LF that stripping one CR byte would produce. -/
theorem C5_counterexample :
    reverse_lines_chunked [97, 13, 13, 10] 4 = [[97, 10]] ∧
    [stripOneCR [97, 13, 13] ++ [10]] = [[97, 13, 10]] ∧
    reverse_lines_chunked [97, 13, 13, 10] 4 ≠ [stripOneCR [97, 13, 13] ++ [10]] := by
  decide

/-- Claim C5, amended. Every element of the returned list is a nonempty
span of the file between LF bytes with all trailing CR bytes stripped and
exactly one LF appended; consequently every element ends with exactly one
LF (no LF occurs anywhere else in the element), including lines whose file
fragment had no terminator. -/
theorem C5_normalization (f : List Byte) (c : Nat) (hval : utf8Valid f = true)
    (hc : 1 ≤ c) :
    ∀ l ∈ reverse_lines_chunked f c,
      (∃ s ∈ pySplitNl f, s ≠ [] ∧ l = rstripCR s ++ [10]) ∧
      l.getLast? = some 10 ∧ 10 ∉ l.dropLast := by
  rw [reverse_lines_chunked_eq hval hc]
  intro l hl
  unfold procLines at hl
  rw [List.mem_map] at hl
  obtain ⟨s, hs, hls⟩ := hl
  rw [List.mem_filter] at hs
  obtain ⟨hs1, hs2⟩ := hs
  rw [List.mem_reverse] at hs1
  have hsne : s ≠ [] := by
    intro he
    rw [he] at hs2
    simp at hs2
  refine ⟨⟨s, hs1, hsne, hls.symm⟩, ?_, ?_⟩
  · rw [← hls]
    unfold normLine
    rw [List.getLast?_concat]
  · rw [← hls]
    unfold normLine
    rw [List.dropLast_concat]
    intro hmem
    exact pySplitNl_no_mem s hs1 (mem_rstripCR hmem)

/-- Claim C5, witness at the file a LF b CR with chunk size one. -/
theorem C5_normalization_witness :
    utf8Valid [97, 10, 98, 13] = true ∧
    ∀ l ∈ reverse_lines_chunked [97, 10, 98, 13] 1,
      (∃ s ∈ pySplitNl [97, 10, 98, 13], s ≠ [] ∧ l = rstripCR s ++ [10]) ∧
      l.getLast? = some 10 ∧ 10 ∉ l.dropLast :=
  ⟨by decide, C5_normalization [97, 10, 98, 13] 1 (by decide) (by decide)⟩

/-- Claim C6. With a chunk size of at least one, at every iteration with a
positive cursor not past the file length the cursor strictly decreases,
the read moves it down by exactly min (chunk size) (cursor) so it never
becomes negative, the fetched chunk holds exactly min (chunk size)
(cursor) bytes, and the scan terminates: any fuel of at least the cursor,
in particular the cursor itself, computes the fixed point of the loop. -/
theorem C6_cursor (f : List Byte) (c : Nat) (hc : 1 ≤ c) :
    (∀ p : Nat, 0 < p → p ≤ f.length →
      p - min c p < p ∧ p - min c p + min c p = p ∧ 1 ≤ min c p ∧
      (bufSlice f (p - min c p) p).length = min c p) ∧
    (∀ fuel p (buffer : List Byte) (lines : List (List Byte)) (peak : Nat), p ≤ fuel →
      scanLoopF f c fuel p buffer lines peak = scanLoopF f c p p buffer lines peak) := by
  constructor
  · intro p hp hpN
    refine ⟨by omega, by omega, by omega, ?_⟩
    have hlen := bufSlice_length (f := f) (a := p - min c p) (b := p) (by omega) hpN
    omega
  · intro fuel p buffer lines peak hfuel
    exact scanLoopF_fuel_irrel hc p fuel p buffer lines peak hfuel (le_refl p)

/-- Claim C6, witness at the file a LF with chunk size one. -/
theorem C6_cursor_witness :
    (1 : Nat) ≤ 1 ∧
    (bufSlice [97, 10] (2 - min 1 2) 2).length = min 1 2 ∧
    scanLoopF [97, 10] 1 5 2 [] [] 0 = scanLoopF [97, 10] 1 2 2 [] [] 0 :=
  ⟨by decide,
    ((C6_cursor [97, 10] 1 (by decide)).1 2 (by decide) (by decide)).2.2.2,
    (C6_cursor [97, 10] 1 (by decide)).2 5 2 [] [] 0 (by decide)⟩

/-- Claim C7. On a missing file the open raises FileNotFoundError, the
first handler absorbs it, prints the not-found diagnostic and returns the
empty list; the lines attribute stays empty and nothing escapes to the
caller. -/
theorem C7_not_found : ∀ c : Nat, runModel none c = ⟨[], [], [Diag.fileNotFound]⟩ :=
  fun _ => rfl

/-- Claim C8, counterexample. On a nine-byte file of three lines whose
device fails for reads below offset three, the scan has already gathered
the line cc LF when the failing read occurs, yet the method returns the
empty list: the gathered lines are only left on the lines attribute, not
returned. -/
theorem C8_counterexample :
    runModel (some ⟨[97, 97, 10, 98, 98, 10, 99, 99, 10], 3⟩) 3 =
      ⟨[], [[99, 99, 10]], [Diag.ioError]⟩ ∧
    ([] : List (List Byte)) ≠ [[99, 99, 10]] := by
  decide

/-- Claim C8, amended. When a read fails mid-scan the generic handler
returns the empty list together with the error diagnostic, while the
lines gathered before the failure stay on the lines attribute of the
object; those gathered lines are exactly the reference lines of a fully
processed suffix of the file. -/
theorem C8_partial_kept (dev : Device) (c : Nat) (L : List (List Byte))
    (hval : utf8Valid dev.bytes = true) (hc : 1 ≤ c)
    (herr : scanExF dev c dev.bytes.length dev.bytes.length [] [] = .error L) :
    runModel (some dev) c = ⟨[], L, [Diag.ioError]⟩ ∧
    ∃ β, β ≤ dev.bytes.length ∧ L = procLines (dev.bytes.drop β) := by
  constructor
  · simp only [runModel, herr]
  · rcases dev with ⟨bytes, fb⟩
    exact scanExF_error_inv hval hc _ _ _ _ _ (le_refl _) (Inv_init bytes) herr

/-- Claim C8, witness with the failing device of the counterexample. -/
theorem C8_partial_kept_witness :
    utf8Valid [97, 97, 10, 98, 98, 10, 99, 99, 10] = true ∧
    scanExF ⟨[97, 97, 10, 98, 98, 10, 99, 99, 10], 3⟩ 3 9 9 [] [] = .error [[99, 99, 10]] ∧
    (runModel (some ⟨[97, 97, 10, 98, 98, 10, 99, 99, 10], 3⟩) 3 =
        ⟨[], [[99, 99, 10]], [Diag.ioError]⟩ ∧
      ∃ β, β ≤ 9 ∧
        [[99, 99, 10]] = procLines (List.drop β [97, 97, 10, 98, 98, 10, 99, 99, 10])) :=
  ⟨by decide, by rfl, C8_partial_kept _ _ _ (by decide) (by decide) (by rfl)⟩

/-- Claim C9, counterexample. On the file C3 LF C3 LF 80, which does not
decode as UTF-8, the re-merged buffer retains an LF, and with chunk size
one the buffer grows to three bytes, although the chunk size plus the
longest terminator-free span of the file is only two. -/
theorem C9_counterexample :
    (scanLoopF [195, 10, 195, 10, 128] 1 5 5 [] [] 0).2.2 = 3 ∧
    1 + longestRun [195, 10, 195, 10, 128] < 3 := by
  decide

/-- Claim C9, amended. On a file that decodes as UTF-8, the largest buffer
the scan ever holds is bounded by the chunk size plus the longest LF-free
span of the file, independently of the file length. -/
theorem C9_peak_bound (f : List Byte) (c : Nat) (hval : utf8Valid f = true)
    (hc : 1 ≤ c) :
    (scanLoopF f c f.length f.length [] [] 0).2.2 ≤ c + longestRun f := by
  obtain ⟨pk, hrun, hpk⟩ :=
    scan_spec hval hc f.length f.length [] [] 0 (le_refl _) (Inv_init f)
  rw [hrun]
  simpa using hpk

/-- Claim C9, witness at the file a LF b with chunk size one. -/
theorem C9_peak_bound_witness :
    utf8Valid [97, 10, 98] = true ∧
    (scanLoopF [97, 10, 98] 1 3 3 [] [] 0).2.2 ≤ 1 + longestRun [97, 10, 98] :=
  ⟨by decide, C9_peak_bound [97, 10, 98] 1 (by decide) (by decide)⟩

/-- Claim C10. For every chunk size of at least one: in the file a LF CR
LF b LF the empty line terminated by CR LF (candidate span CR) is emitted
as the line LF, while in the file a LF LF b LF the empty line terminated
by a bare LF (empty candidate span) is omitted from the output. -/
theorem C10_empty_line_styles (c : Nat) (hc : 1 ≤ c) :
    reverse_lines_chunked [97, 10, 13, 10, 98, 10] c = [[98, 10], [10], [97, 10]] ∧
    reverse_lines_chunked [97, 10, 10, 98, 10] c = [[98, 10], [97, 10]] := by
  constructor
  · rw [reverse_lines_chunked_eq (by decide) hc]
    decide
  · rw [reverse_lines_chunked_eq (by decide) hc]
    decide

/-- Claim C10, witness at chunk size one. -/
theorem C10_empty_line_styles_witness :
    (1 : Nat) ≤ 1 ∧
    (reverse_lines_chunked [97, 10, 13, 10, 98, 10] 1 = [[98, 10], [10], [97, 10]] ∧
      reverse_lines_chunked [97, 10, 10, 98, 10] 1 = [[98, 10], [97, 10]]) :=
  ⟨by decide, C10_empty_line_styles 1 (by decide)⟩

end BWRev
